import Mathlib

/-!
Verification development for the beads-vscode extension.

This file gives a shallow embedding in Lean 4 of the data model and the
operations of the extension (src/utils.ts and src/extension.ts):

* a model of dynamic JS values (`JsValue`) and the field-picking helpers
  `pickValue`, `pickFirstKey`, `pickTags`;
* the issue normalizer `normalizeBead`;
* the natural-order comparator `naturalSort` used by `loadBeads`
  (JS `id.split(/(\d+)/)` modelled by `splitRunsList`, `parseInt` on a
  run modelled by `runVal`, `localeCompare` modelled by code-point
  comparison, `Array.prototype.sort` modelled by a stable insertion sort);
* the manual sort overlay `applySortOrder` and the drag-and-drop handler
  `handleDrop`;
* the refresh coordinator (the `refreshInProgress` / `pendingRefresh`
  flags of `BeadsTreeDataProvider.refresh`) as an explicit state machine;
* the dependency-graph layered layout `calculateLayout` (the level
  assignment part), with the BFS loop run on an explicit fuel together
  with a proved sufficiency bound.

Theorems about these definitions settle the spec claims.
-/

/-- Model of a dynamic JavaScript value as handled by the extension:
`null`, `undefined`, booleans, numbers (the extension only ever reads
integral ids/positions, so numbers are modelled as `Int`), strings,
arrays and objects (association lists of fields). -/
inductive JsValue where
  | null : JsValue
  | undefined : JsValue
  | bool : Bool → JsValue
  | num : Int → JsValue
  | str : String → JsValue
  | arr : List JsValue → JsValue
  | obj : List (String × JsValue) → JsValue

open JsValue

mutual

/-- JS `String(value)` conversion for the values above.  Arrays convert by
joining the element conversions with commas (with `null`/`undefined`
elements contributing the empty string, as `Array.prototype.join` does);
objects convert to `"[object Object]"`. -/
def jsToString : JsValue → String
  | .null => "null"
  | .undefined => "undefined"
  | .bool b => if b then "true" else "false"
  | .num n => toString n
  | .str s => s
  | .arr xs => String.intercalate "," (jsToStringElems xs)
  | .obj _ => "[object Object]"

/-- Element-wise conversion used by the array case of `jsToString`. -/
def jsToStringElems : List JsValue → List String
  | [] => []
  | .null :: vs => "" :: jsToStringElems vs
  | .undefined :: vs => "" :: jsToStringElems vs
  | v :: vs => jsToString v :: jsToStringElems vs

end

/-- The own-property list of a value, when the value is a JS object in the
`typeof` sense used by the guards `!entry || typeof entry !== 'object'`:
objects expose their fields, arrays expose index keys, and every other
value (including `null`, which those guards reject via `!entry`) has
none. -/
def jsFields : JsValue → Option (List (String × JsValue))
  | .obj fs => some fs
  | .arr xs => some ((xs.enum.map fun p => (toString p.1, p.2)))
  | _ => none

/-- First binding of `key` in a field list (JS objects have unique keys,
so first-match lookup is exact). -/
def lookupField (fields : List (String × JsValue)) (key : String) : Option JsValue :=
  match fields with
  | [] => none
  | (k, v) :: rest => if k = key then some v else lookupField rest key

/-- The scan shared by `pickValue` and `pickFirstKey` in utils.ts: walk the
priority `keys`, skip keys that are absent or bound to `undefined`/`null`,
and return the stringified value together with the key that produced it. -/
def pickScan (fields : List (String × JsValue)) : List String → Option (String × String)
  | [] => none
  | key :: keys =>
    match lookupField fields key with
    | none => pickScan fields keys
    | some .undefined => pickScan fields keys
    | some .null => pickScan fields keys
    | some v => some (jsToString v, key)

/-- utils.ts `pickValue(entry, keys, fallback)`: the first present
non-nullish value among `keys`, stringified, else `fallback`. -/
def pickValue (entry : JsValue) (keys : List String) (fallback : Option String) :
    Option String :=
  match jsFields entry with
  | none => fallback
  | some fields =>
    match pickScan fields keys with
    | some (v, _) => some v
    | none => fallback

/-- utils.ts `pickFirstKey(entry, keys)`: like `pickValue` but also
reports which key matched, and with no fallback. -/
def pickFirstKey (entry : JsValue) (keys : List String) : Option (String × String) :=
  match jsFields entry with
  | none => none
  | some fields => pickScan fields keys

/-- JS falsiness for the values that can reach the `!candidate` guard of
`pickTags`. -/
def jsFalsy : JsValue → Bool
  | .null => true
  | .undefined => true
  | .bool b => !b
  | .num n => n = 0
  | .str s => s = ""
  | .arr _ => false
  | .obj _ => false

/-- JS property read `entry.key` (missing property reads as `undefined`). -/
def jsGetProp (entry : JsValue) (key : String) : JsValue :=
  match jsFields entry with
  | none => .undefined
  | some fields => (lookupField fields key).getD .undefined

/-- JS `a ?? b`. -/
def jsCoalesce (a b : JsValue) : JsValue :=
  match a with
  | .null => b
  | .undefined => b
  | v => v

/-- Split a character list at every occurrence of `c`, keeping empty
segments: the char-level behavior of JS `String.prototype.split` with a
single-character separator. -/
def splitOnCharList (c : Char) : List Char → List (List Char)
  | [] => [[]]
  | x :: xs =>
    match splitOnCharList c xs with
    | [] => [[]]
    | p :: ps => if x = c then [] :: p :: ps else (x :: p) :: ps

/-- JS `s.split(c)` for a one-character separator `c`. -/
def jsSplitChar (c : Char) (s : String) : List String :=
  (splitOnCharList c s.toList).map fun l => ⟨l⟩

/-- utils.ts `pickTags(entry)`: candidate is
`entry.labels ?? entry.tags ?? entry.tag_list`; falsy candidates give
`undefined`; arrays map every element through `String`; strings split on
commas, trim each part, and drop empty parts; anything else gives
`undefined`. -/
def pickTags (entry : JsValue) : Option (List String) :=
  match jsFields entry with
  | none => none
  | some _ =>
    let candidate := jsCoalesce (jsGetProp entry "labels")
      (jsCoalesce (jsGetProp entry "tags") (jsGetProp entry "tag_list"))
    if jsFalsy candidate then none
    else
      match candidate with
      | .arr xs => some (xs.map jsToString)
      | .str s => some (((jsSplitChar ',' s).map String.trim).filter (fun t => t.length > 0))
      | _ => none

/-- The canonical normalized issue, `BeadItemData` of utils.ts. -/
structure BeadItemData where
  id : String
  idKey : Option String
  title : String
  filePath : Option String
  status : Option String
  tags : Option (List String)
  externalReferenceId : Option String
  externalReferenceDescription : Option String
  externalReferenceKey : Option String
  raw : JsValue

/-- The synthesized placeholder id used when no id alias is usable. -/
def beadPlaceholder (index : Nat) : String := "bead-" ++ toString index

/-- The external-reference block of `normalizeBead`: JS
`raw.split(':', 2)` is the full split on `':'` truncated to its first
two segments; `parts[0]` is the id and `parts[1]`, when it exists, the
description.  The enclosing `if (externalReferenceRaw)` guard makes the
empty raw string parse to nothing. -/
def parseExternalRef (rawRef : String) : Option String × Option String :=
  if rawRef = "" then (none, none)
  else
    let parts := (jsSplitChar ':' rawRef).take 2
    (parts.head?, if parts.length > 1 then parts[1]? else none)

/-- utils.ts `normalizeBead(entry, index)`. -/
def normalizeBead (entry : JsValue) (index : Nat) : BeadItemData :=
  let idPair := pickFirstKey entry ["id", "uuid", "beadId"]
  let id : Option String := idPair.map (·.1)
  let idKey : Option String := idPair.map (·.2)
  let title : String :=
    (pickValue entry ["title", "name"] (some (id.getD (beadPlaceholder index)))).getD
      (beadPlaceholder index)
  let filePath := pickValue entry ["file", "path", "filename"] none
  let status := pickValue entry ["status", "state"] none
  let tags := pickTags entry
  let extPair := pickFirstKey entry
    ["external_reference_id", "externalReferenceId", "external_ref",
     "external_reference", "externalRefId"]
  let externalReferenceKey : Option String := extPair.map (·.2)
  let extRaw : Option String := extPair.map (·.1)
  let extParsed : Option String × Option String :=
    match extRaw with
    | some rawRef => parseExternalRef rawRef
    | none => (none, none)
  { id := id.getD (beadPlaceholder index)
    idKey := idKey
    title := title
    filePath := filePath
    status := status
    tags := tags
    externalReferenceId := extParsed.1
    externalReferenceDescription := extParsed.2
    externalReferenceKey := externalReferenceKey
    raw := entry }

/-! ## Natural sort (extension.ts `naturalSort` and the load-time sort) -/

/-- Model of JS `id.split(/(\d+)/)`: the id is cut into maximal runs,
alternating non-digit/digit, starting and ending with a (possibly empty)
non-digit piece, exactly as the captured-group split produces them. -/
def splitRunsList : List Char → List (List Char)
  | [] => [[]]
  | c :: cs =>
    match splitRunsList cs with
    | [] => [[]]
    | p :: ps =>
      if c.isDigit then
        match p, ps with
        | [], d :: rest => [] :: (c :: d) :: rest
        | _, _ => [] :: [c] :: p :: ps
      else
        (c :: p) :: ps

/-- Decimal value of a list of digit characters. -/
def digitsVal (l : List Char) : Nat :=
  l.foldl (fun n c => 10 * n + (c.toNat - '0'.toNat)) 0

/-- Model of `parseInt(part, 10)` restricted to the runs produced by
`splitRunsList`: a non-empty all-digit run parses exactly to its decimal
value, every other run (in particular the empty boundary pieces and the
non-digit runs) parses to `NaN`, modelled as `none`. -/
def runVal (l : List Char) : Option Nat :=
  if l ≠ [] ∧ l.all Char.isDigit then some (digitsVal l) else none

/-- `localeCompare`, modelled as code-point lexicographic comparison
returning a sign. -/
def strCmp : List Char → List Char → Int
  | [], [] => 0
  | [], _ :: _ => -1
  | _ :: _, [] => 1
  | a :: as, b :: bs => if a < b then -1 else if b < a then 1 else strCmp as bs

/-- The comparator loop of `naturalSort`: walk the two run lists in step
up to the shorter one (runs at equal index always have the same
digit/non-digit kind), comparing digit runs numerically and other runs
as strings, and fall through to the difference of the run counts. -/
def cmpRuns : List (List Char) → List (List Char) → Int
  | a :: as, b :: bs =>
    match runVal a, runVal b with
    | some va, some vb => if va ≠ vb then (va : Int) - (vb : Int) else cmpRuns as bs
    | _, _ => if a ≠ b then strCmp a b else cmpRuns as bs
  | as, bs => (as.length : Int) - (bs.length : Int)

/-- extension.ts `naturalSort(a, b)` on two ids. -/
def naturalCmpStr (a b : String) : Int :=
  cmpRuns (splitRunsList a.toList) (splitRunsList b.toList)

/-- extension.ts `naturalSort` on two normalized issues. -/
def naturalSort (a b : BeadItemData) : Int :=
  naturalCmpStr a.id b.id

/-- Insertion into a sorted list keeping later-arriving elements after
tied earlier ones: the stable-insert step of `sortByCmp`. -/
def insertSorted (cmp : α → α → Int) (x : α) : List α → List α
  | [] => [x]
  | y :: ys => if cmp y x < 0 then y :: insertSorted cmp x ys else x :: y :: ys

/-- Stable sort by a sign-valued comparator, modelling JS
`Array.prototype.sort` (which is stable) for consistent comparators. -/
def sortByCmp (cmp : α → α → Int) : List α → List α
  | [] => []
  | x :: xs => insertSorted cmp x (sortByCmp cmp xs)

/-- The load path shared by `loadBeads` and `loadBeadsFromFile`:
normalize every raw record with its ordinal, then sort naturally. -/
def loadBeadsItems (beads : List JsValue) : List BeadItemData :=
  sortByCmp naturalSort ((beads.enum).map fun p => normalizeBead p.2 p.1)

/-! ## Manual sort overlay (extension.ts `applySortOrder`) and drag-drop -/

/-- The persisted manual sort order, `Map<issueId, sortIndex>`, modelled
as an association list with first-match lookup. -/
def SortMap := List (String × Nat)

/-- `Map.get` on the manual sort order. -/
def sortMapGet (m : SortMap) (id : String) : Option Nat :=
  match m with
  | [] => none
  | (k, v) :: rest => if k = id then some v else sortMapGet rest id

/-- `Map.set` on the manual sort order (overwrite or append). -/
def sortMapSet (m : SortMap) (id : String) (idx : Nat) : SortMap :=
  match m with
  | [] => [(id, idx)]
  | (k, v) :: rest => if k = id then (k, idx) :: rest else (k, v) :: sortMapSet rest id idx

/-- extension.ts `applySortOrder(items)`: if the map is empty return the
items unchanged; otherwise partition into the items having a manual
entry (paired with that entry) and the rest, sort the first group stably
by the entry ascending, and concatenate. -/
def applySortOrder (m : SortMap) (items : List BeadItemData) : List BeadItemData :=
  if m.isEmpty then items
  else
    let itemsWithOrder : List (BeadItemData × Nat) :=
      items.filterMap fun it => (sortMapGet m it.id).map fun o => (it, o)
    let itemsWithoutOrder : List BeadItemData :=
      items.filter fun it => (sortMapGet m it.id).isNone
    (sortByCmp (fun a b => ((a.2 : Int) - (b.2 : Int))) itemsWithOrder).map (·.1)
      ++ itemsWithoutOrder

/-- The reordered visible sequence computed by extension.ts `handleDrop`:
`dropIndex` is the target's index in the *pre-removal* current sequence
(or its length when dropping at the end); the dragged items are removed
and the dragged block is spliced at offset `dropIndex` of the remaining
sequence.  `none` models the early returns (no dragged items, or target
not found). -/
def handleDropNewOrder (target : Option String) (draggedItems : List BeadItemData)
    (currentItems : List BeadItemData) : Option (List BeadItemData) :=
  if draggedItems.isEmpty then none
  else
    let dropIndex? : Option Nat :=
      match target with
      | some tid =>
        match currentItems.findIdx? (fun it => it.id = tid) with
        | some i => some i
        | none => none
      | none => some currentItems.length
    match dropIndex? with
    | none => none
    | some dropIndex =>
      let itemsToMove := draggedItems.map (·.id)
      let remainingItems := currentItems.filter fun it => ¬ itemsToMove.contains it.id
      some (remainingItems.take dropIndex ++ draggedItems ++ remainingItems.drop dropIndex)

/-- The manual-sort-order update performed at the end of `handleDrop`:
every item of the new order receives its 0-based index. -/
def recordNewOrder (m : SortMap) (newOrder : List BeadItemData) : SortMap :=
  (newOrder.enum).foldl (fun acc p => sortMapSet acc p.2.id p.1) m

/-! ## Refresh coordinator (extension.ts `BeadsTreeDataProvider.refresh`) -/

/-- The two events driving the coordinator: a refresh request (user
action, watcher debounce firing, or mutation follow-up) and the
completion of the in-flight load (the `finally` block of `refresh`). -/
inductive CoordEvent where
  | refreshRequested : CoordEvent
  | loadCompletes : CoordEvent
deriving DecidableEq

/-- Coordinator state: the two flags of the provider, instrumented with
counters of started and completed loads so that "at most one load in
flight" is expressible. -/
structure CoordState where
  refreshInProgress : Bool
  pendingRefresh : Bool
  loadsStarted : Nat
  loadsCompleted : Nat
deriving DecidableEq

/-- The initial coordinator state. -/
def coordInit : CoordState :=
  { refreshInProgress := false, pendingRefresh := false
    loadsStarted := 0, loadsCompleted := 0 }

/-- One transition of the coordinator, read off `refresh()`:
a request during a load only sets `pendingRefresh`; a request when idle
starts a load; a completion clears `refreshInProgress` and, when a
refresh is pending, immediately re-enters `refresh()`, which starts the
recorded load. -/
def coordStep (s : CoordState) : CoordEvent → CoordState
  | .refreshRequested =>
    if s.refreshInProgress then { s with pendingRefresh := true }
    else { s with refreshInProgress := true, loadsStarted := s.loadsStarted + 1 }
  | .loadCompletes =>
    if s.pendingRefresh then
      { s with pendingRefresh := false, loadsCompleted := s.loadsCompleted + 1,
               refreshInProgress := true, loadsStarted := s.loadsStarted + 1 }
    else { s with refreshInProgress := false, loadsCompleted := s.loadsCompleted + 1 }

/-- Run the coordinator over a list of events. -/
def coordRun (s : CoordState) : List CoordEvent → CoordState
  | [] => s
  | e :: es => coordRun (coordStep s e) es

/-- An event list is valid from `s` when every `loadCompletes` occurs
while a load is actually in flight (completions of loads that were never
started cannot happen in the single-threaded host). -/
def coordValid (s : CoordState) : List CoordEvent → Bool
  | [] => true
  | e :: es =>
    (e = CoordEvent.refreshRequested || s.refreshInProgress) && coordValid (coordStep s e) es

/-- Loads in flight: started but not completed. -/
def loadsInFlight (s : CoordState) : Nat := s.loadsStarted - s.loadsCompleted

/-! ## Load failure handling (extension.ts `loadBeads` / `refresh`) -/

/-- A loaded document (`BeadsDocument`): the watched path, and the raw
bead records (the `root` field always reproduces the beads in the two
load paths relevant here). -/
structure BeadsDocument where
  filePath : String
  beads : List JsValue

/-- The provider state touched by a refresh: the normalized items and
the loaded document. -/
structure ProviderData where
  items : List BeadItemData
  document : Option BeadsDocument

/-- extension.ts `loadBeads()`: try the CLI export; on any failure fall
back to the data file; the surviving raw records are normalized with
their ordinals and naturally sorted.  `cli` and `file` stand for the
outcomes of the two awaited external calls. -/
def loadBeads (cli : Except String (List JsValue)) (dbPath : String)
    (file : Except String (List JsValue)) (dataFilePath : String) :
    Except String (List BeadItemData × BeadsDocument) :=
  match cli with
  | .ok beads => .ok (loadBeadsItems beads, { filePath := dbPath, beads := beads })
  | .error _ =>
    match file with
    | .ok beads => .ok (loadBeadsItems beads, { filePath := dataFilePath, beads := beads })
    | .error e => .error e

/-- extension.ts `formatError(prefix, error)` for `Error` values. -/
def formatError (pre : String) (message : String) : String :=
  pre ++ ": " ++ message

/-- The state/notification effect of one `refresh()` body once the load
settles: on success the items and document are replaced wholesale; on
failure the state is left as it was and the error is surfaced as a
notification.  Returns the new state and the reported message, if any. -/
def refreshApply (result : Except String (List BeadItemData × BeadsDocument))
    (st : ProviderData) : ProviderData × Option String :=
  match result with
  | .ok (items, doc) => ({ items := items, document := some doc }, none)
  | .error e => (st, some (formatError "Unable to refresh beads list" e))

/-! ## Dependency graph layered layout (webview `calculateLayout`) -/

/-- A directed edge of the dependency graph (`{from, to}` of the webview
script; `from` is a Lean keyword, hence `efrom`/`eto`). -/
structure GEdge where
  efrom : String
  eto : String
deriving DecidableEq

/-- Out-degree of an id: the number of edges leaving it (the
`outDegree` map of `calculateLayout`, whose node keys start at 0). -/
def outDeg (edges : List GEdge) (id : String) : Nat :=
  (edges.filter fun e => e.efrom = id).length

/-- The keys of the `outDegree` map after the `edges.forEach` pass:
every node, plus every edge source that is not a node (the increment
creates map entries for such sources too). -/
def degKeys (nodes : List String) (edges : List GEdge) : List String :=
  nodes ++ (edges.map (·.efrom)).filter (fun f => !(nodes.contains f))

/-- `Math.min(...Array.from(outDegree.values()))` over the map above. -/
def minOutDegree (nodes : List String) (edges : List GEdge) : Nat :=
  match (degKeys nodes edges).map (outDeg edges) with
  | [] => 0
  | v :: vs => vs.foldl min v

/-- The seeds of the BFS: the nodes of out-degree 0, or if there are
none, the nodes whose out-degree equals the minimum over the map. -/
def layoutSeeds (nodes : List String) (edges : List GEdge) : List String :=
  let leaves := nodes.filter fun n => outDeg edges n = 0
  if leaves.isEmpty then nodes.filter fun n => outDeg edges n = minOutDegree nodes edges
  else leaves

/-- BFS state of `calculateLayout`: the queue of `{node, level}` entries,
the visited set (a list whose membership models `Set.has`), and the
placements performed so far (`levels.get(level).push(node)` recorded in
execution order). -/
structure BfsState where
  queue : List (String × Nat)
  visited : List String
  placements : List (String × Nat)

/-- The parents scan of one loop iteration:
`edges.filter(e => e.to === id).map(e => nodes.find(n => n.id === e.from))
 .filter(n => n && !visited.has(n.id))`. -/
def bfsParents (nodes : List String) (edges : List GEdge) (visited : List String)
    (id : String) : List String :=
  (((edges.filter fun e => e.eto = id).filterMap fun e =>
      if nodes.contains e.efrom then some e.efrom else none).filter
    fun p => !(visited.contains p))

/-- One iteration of the BFS while-loop: dequeue, place, and enqueue the
not-yet-visited parents at the next level (marking them visited). -/
def bfsStep (nodes : List String) (edges : List GEdge) (st : BfsState) : BfsState :=
  match st.queue with
  | [] => st
  | (id, level) :: rest =>
    let parents := bfsParents nodes edges st.visited id
    { queue := rest ++ parents.map (fun p => (p, level + 1))
      visited := st.visited ++ parents
      placements := st.placements ++ [(id, level)] }

/-- The BFS while-loop, run on an explicit fuel; `bfsFuel_sufficient`
below proves that the fuel used by `calculateLevels` always drains the
queue, so the fuel is a proof device, not a behavioral change. -/
def bfsRun (nodes : List String) (edges : List GEdge) : Nat → BfsState → BfsState
  | 0, st => st
  | fuel + 1, st =>
    match st.queue with
    | [] => st
    | _ :: _ => bfsRun nodes edges fuel (bfsStep nodes edges st)

/-- `maxLevel + 1` of the unvisited-nodes pass: one past the maximum
level in use, or 0 when no level exists yet. -/
def nextLevel (placements : List (String × Nat)) : Nat :=
  match placements with
  | [] => 0
  | _ :: _ => (placements.foldl (fun m p => max m p.2) 0) + 1

/-- Fuel that provably suffices for the BFS. -/
def bfsFuelBound (nodes : List String) (edges : List GEdge) : Nat :=
  nodes.length * (edges.length + 1) + nodes.length

/-- The level-assignment part of `calculateLayout`: seed the queue, run
the backwards BFS, then append every unvisited node one level past the
current maximum (recomputed after each such append, as the
`nodes.forEach` does).  The result lists each `levels.get(l).push(node)`
as a `(node, l)` pair in execution order. -/
def calculateLevels (nodes : List String) (edges : List GEdge) : List (String × Nat) :=
  let seeds := layoutSeeds nodes edges
  let st0 : BfsState := { queue := seeds.map (fun n => (n, 0)), visited := seeds, placements := [] }
  let fin := bfsRun nodes edges (bfsFuelBound nodes edges) st0
  nodes.foldl
    (fun pl n => if fin.visited.contains n then pl else pl ++ [(n, nextLevel pl)])
    fin.placements

/-! ## Auxiliary definitions for the theorems -/

/-- A five-item naturally sorted list, built through the load path. -/
def dropExampleItems : List BeadItemData :=
  loadBeadsItems
    [obj [("id", str "T-1")], obj [("id", str "T-2")], obj [("id", str "T-3")],
     obj [("id", str "T-4")], obj [("id", str "T-5")]]

/-- The inductive invariant of the coordinator: the started/completed
counters track the `refreshInProgress` flag exactly. -/
def CoordInv (s : CoordState) : Prop :=
  (s.refreshInProgress = true → s.loadsStarted = s.loadsCompleted + 1) ∧
  (s.refreshInProgress = false → s.loadsStarted = s.loadsCompleted)

/-- The pair-building step of `applySortOrder`. -/
def orderPair (m : SortMap) (it : BeadItemData) : Option (BeadItemData × Nat) :=
  (sortMapGet m it.id).map fun o => (it, o)

/-- One run strictly precedes another in the sense of the spec: digit
runs compare numerically, and runs compare as strings (code-point
lexicographically) when at least one of them does not parse as a
number. -/
def runLT (a b : List Char) : Prop :=
  (∃ va vb, runVal a = some va ∧ runVal b = some vb ∧ va < vb) ∨
  ((runVal a = none ∨ runVal b = none) ∧ List.Lex (· < ·) a b)

/-- Two runs tie: they are digit runs with the same numeric value
(possibly differing in leading zeros), or they are equal. -/
def runTie (a b : List Char) : Prop :=
  (∃ v, runVal a = some v ∧ runVal b = some v) ∨ a = b

/-- The declarative "natural order" on run lists: the first
non-tying run decides (numerically for digit runs, lexically
otherwise), and when every compared run ties the list with fewer runs
comes first. -/
inductive RunsLT : List (List Char) → List (List Char) → Prop
  | nil {b : List Char} {bs : List (List Char)} : RunsLT [] (b :: bs)
  | head {a b : List Char} {as bs : List (List Char)} (h : runLT a b) :
      RunsLT (a :: as) (b :: bs)
  | tail {a b : List Char} {as bs : List (List Char)} (h : runTie a b)
      (hrest : RunsLT as bs) : RunsLT (a :: as) (b :: bs)

/-- Termination measure of the BFS while-loop: unvisited nodes weighted
by the edge count, plus the queue length. -/
def bfsMeasure (nodes : List String) (edges : List GEdge) (st : BfsState) : Nat :=
  (nodes.filter fun n => !(st.visited.contains n)).length * (edges.length + 1)
    + st.queue.length

/-! ## Theorems -/

theorem splitOnCharList_ne_nil (c : Char) (l : List Char) : splitOnCharList c l ≠ [] := by
  cases l with
  | nil => simp [splitOnCharList]
  | cons x xs =>
    unfold splitOnCharList
    cases splitOnCharList c xs with
    | nil => simp
    | cons p ps => by_cases hx : x = c <;> simp [hx]

theorem splitOnCharList_eq (c : Char) (l : List Char) :
    splitOnCharList c l =
      l.takeWhile (fun x => x != c) ::
        (match l.dropWhile (fun x => x != c) with
         | [] => []
         | _ :: rest => splitOnCharList c rest) := by
  induction l with
  | nil => rfl
  | cons x xs ih =>
    rw [show splitOnCharList c (x :: xs) =
        (match splitOnCharList c xs with
         | [] => [[]]
         | p :: ps => if x = c then [] :: p :: ps else (x :: p) :: ps) from rfl, ih]
    dsimp only
    by_cases hx : x = c
    · rw [if_pos hx]
      subst hx
      rw [List.takeWhile_cons, List.dropWhile_cons]
      simp only [bne_self_eq_false, Bool.false_eq_true, if_false]
      rw [← ih]
    · rw [if_neg hx]
      have hb : (x != c) = true := by simp [hx]
      rw [List.takeWhile_cons, List.dropWhile_cons, hb]
      simp only [if_true]

theorem parseExternalRef_spec (s : String) (h : s ≠ "") :
    parseExternalRef s =
      (some ⟨s.toList.takeWhile (fun ch => ch != ':')⟩,
       match s.toList.dropWhile (fun ch => ch != ':') with
       | [] => none
       | _ :: rest => some ⟨rest.takeWhile (fun ch => ch != ':')⟩) := by
  unfold parseExternalRef
  rw [if_neg h]
  unfold jsSplitChar
  rw [splitOnCharList_eq]
  cases hd : s.toList.dropWhile (fun ch => ch != ':') with
  | nil => rfl
  | cons d rest =>
    dsimp only
    rw [splitOnCharList_eq]
    rfl

theorem pickValue_eq_or (entry : JsValue) (keys : List String) (fb : Option String) :
    pickValue entry keys fb = (pickValue entry keys none).or fb := by
  unfold pickValue
  rcases hf : jsFields entry with _ | fields
  · cases fb <;> rfl
  · dsimp only
    rcases hs : pickScan fields keys with _ | ⟨v, k⟩
    · cases fb <;> rfl
    · rfl

theorem normalizeBead_extRef_eq (s : String) :
    ((normalizeBead (obj [("external_reference_id", str s)]) 0).externalReferenceId,
     (normalizeBead (obj [("external_reference_id", str s)]) 0).externalReferenceDescription) =
      parseExternalRef s := rfl

/-- C2 counterexample: on the raw external reference string containing a
second colon, the normalizer keeps only the segment between the first
and second colon as the description, not the entire remainder after the
first colon. -/
theorem c2_counterexample :
    (normalizeBead (obj [("external_reference_id", str "A:b:c")]) 0).externalReferenceId
        = some "A" ∧
    (normalizeBead (obj [("external_reference_id", str "A:b:c")]) 0).externalReferenceDescription
        = some "b" ∧
    ("b" : String) ≠ "b:c" := by
  exact ⟨rfl, rfl, by decide⟩

/-- C2 (amended): for every non-empty raw external-reference string, the
normalizer sets `externalReferenceId` to the part before the first `:`
and `externalReferenceDescription` to the segment strictly between the
first colon and the next colon or the end of the string (so it is the
entire remainder only when the string has a single colon), and leaves
the description absent when there is no colon. -/
theorem c2_externalRef_amended (s : String) (h : s ≠ "") :
    (normalizeBead (obj [("external_reference_id", str s)]) 0).externalReferenceId =
      some ⟨s.toList.takeWhile (fun ch => ch != ':')⟩ ∧
    (normalizeBead (obj [("external_reference_id", str s)]) 0).externalReferenceDescription =
      (match s.toList.dropWhile (fun ch => ch != ':') with
       | [] => none
       | _ :: rest => some ⟨rest.takeWhile (fun ch => ch != ':')⟩) := by
  have he := normalizeBead_extRef_eq s
  rw [parseExternalRef_spec s h] at he
  exact ⟨congrArg Prod.fst he, congrArg Prod.snd he⟩

/-- Witness for C2: the amended parse at the spec's own example. -/
theorem c2_witness :
    ("JIRA-123:fix login" : String) ≠ "" ∧
    (normalizeBead (obj [("external_reference_id", str "JIRA-123:fix login")]) 0).externalReferenceId
        = some "JIRA-123" ∧
    (normalizeBead (obj [("external_reference_id", str "JIRA-123:fix login")]) 0).externalReferenceDescription
        = some "fix login" ∧
    (normalizeBead (obj [("external_reference_id", str "JIRA-123")]) 0).externalReferenceDescription
        = none := by
  refine ⟨by decide, ?_, ?_, ?_⟩
  · exact (c2_externalRef_amended "JIRA-123:fix login" (by decide)).1
  · exact (c2_externalRef_amended "JIRA-123:fix login" (by decide)).2
  · exact (c2_externalRef_amended "JIRA-123" (by decide)).2

theorem beadPlaceholder_ne_empty (i : Nat) : beadPlaceholder i ≠ "" := by
  intro h
  have h2 := congrArg String.data h
  simp only [beadPlaceholder] at h2
  have h3 : ("bead-" ++ toString i).data = 'b' :: 'e' :: 'a' :: 'd' :: '-' :: (toString i).data := rfl
  rw [h3] at h2
  cases h2

theorem normalizeBead_id_eq (entry : JsValue) (i : Nat) :
    (normalizeBead entry i).id =
      ((pickFirstKey entry ["id", "uuid", "beadId"]).map Prod.fst).getD (beadPlaceholder i) := rfl

theorem normalizeBead_title_eq (entry : JsValue) (i : Nat) :
    (normalizeBead entry i).title =
      (pickValue entry ["title", "name"]
        (some (((pickFirstKey entry ["id", "uuid", "beadId"]).map Prod.fst).getD
          (beadPlaceholder i)))).getD (beadPlaceholder i) := rfl

/-- C4 counterexample: `normalize` does not always produce a non-empty
id and title — a record whose `id` field is present but holds the empty
string yields an empty id and an empty title. -/
theorem c4_counterexample :
    (normalizeBead (obj [("id", str "")]) 0).id = "" ∧
    (normalizeBead (obj [("id", str "")]) 0).title = "" := ⟨rfl, rfl⟩

/-- C4 (amended): `normalize` is total (it is a function on arbitrary
raw values) and its id and title are always defined: when no id alias
carries a non-nullish value the id is the non-empty placeholder
`bead-<index>`; otherwise the id is the stringified alias value.  The
title falls back to the id and then to the placeholder.  The id can be
empty only when a present id alias stringifies to the empty string, and
the title can be empty only when the id is empty or a present title
alias stringifies to the empty string. -/
theorem c4_normalize_amended (entry : JsValue) (i : Nat) :
    (pickFirstKey entry ["id", "uuid", "beadId"] = none →
      (normalizeBead entry i).id = beadPlaceholder i) ∧
    (∀ v k, pickFirstKey entry ["id", "uuid", "beadId"] = some (v, k) →
      (normalizeBead entry i).id = v) ∧
    (pickValue entry ["title", "name"] none = none →
      (normalizeBead entry i).title = (normalizeBead entry i).id) ∧
    (∀ v, pickValue entry ["title", "name"] none = some v →
      (normalizeBead entry i).title = v) ∧
    beadPlaceholder i ≠ "" ∧
    ((normalizeBead entry i).id = "" →
      ∃ k, pickFirstKey entry ["id", "uuid", "beadId"] = some ("", k)) ∧
    ((normalizeBead entry i).title = "" →
      (normalizeBead entry i).id = "" ∨ pickValue entry ["title", "name"] none = some "") := by
  have hid := normalizeBead_id_eq entry i
  have hti := normalizeBead_title_eq entry i
  rw [pickValue_eq_or] at hti
  refine ⟨?_, ?_, ?_, ?_, beadPlaceholder_ne_empty i, ?_, ?_⟩
  · intro h; rw [hid, h]; rfl
  · intro v k h; rw [hid, h]; rfl
  · intro h; rw [hti, h, hid]; rfl
  · intro v h; rw [hti, h]; rfl
  · intro h
    rcases hp : pickFirstKey entry ["id", "uuid", "beadId"] with _ | ⟨v, k⟩
    · rw [hid, hp] at h
      exact absurd h (beadPlaceholder_ne_empty i)
    · rw [hid, hp] at h
      exact ⟨k, by rw [show v = "" from h]⟩
  · intro h
    rcases ht : pickValue entry ["title", "name"] none with _ | v
    · left
      rw [hti, ht] at h
      rw [hid]
      rcases hp : pickFirstKey entry ["id", "uuid", "beadId"] with _ | ⟨v, k⟩
      · rw [hp] at h
        exact absurd h (beadPlaceholder_ne_empty i)
      · rw [hp] at h
        exact h
    · right
      rw [hti, ht] at h
      rw [show v = "" from h]

/-- Witness for C4 (amended): the empty record gets the placeholder id
and title, both non-empty. -/
theorem c4_witness :
    pickFirstKey (obj []) ["id", "uuid", "beadId"] = none ∧
    pickValue (obj []) ["title", "name"] none = none ∧
    (normalizeBead (obj []) 0).id = beadPlaceholder 0 ∧
    (normalizeBead (obj []) 0).title = (normalizeBead (obj []) 0).id ∧
    beadPlaceholder 0 ≠ "" := by
  refine ⟨rfl, rfl, ?_, ?_, ?_⟩
  · exact (c4_normalize_amended (obj []) 0).1 rfl
  · exact (c4_normalize_amended (obj []) 0).2.2.1 rfl
  · exact (c4_normalize_amended (obj []) 0).2.2.2.2.1

/-- C3: evaluating the embedded `handleDrop` reorder at the failing
input.  Dragging the first item `T-1` onto target `T-3` (a drop "before
`T-3`") produces `[T-2, T-3, T-1, T-4, T-5]`: because `dropIndex` is
computed in the pre-removal sequence, the dragged item lands immediately
*after* the target whenever it originally preceded it, contradicting the
intended "insert immediately before the target". -/
theorem c3_handleDrop_after_target :
    (handleDropNewOrder (some "T-3") [normalizeBead (obj [("id", str "T-1")]) 0]
        dropExampleItems).map (List.map BeadItemData.id) =
      some ["T-2", "T-3", "T-1", "T-4", "T-5"] := by
  rfl

/-- C6: a load whose CLI path and file path both fail reports the error
to the caller and leaves the provider state (items and document) exactly
as it was. -/
theorem c6_failed_load_keeps_state (st : ProviderData) (cliErr fileErr dbPath dataPath : String) :
    loadBeads (Except.error cliErr) dbPath (Except.error fileErr) dataPath =
      Except.error fileErr ∧
    refreshApply (loadBeads (Except.error cliErr) dbPath (Except.error fileErr) dataPath) st =
      (st, some (formatError "Unable to refresh beads list" fileErr)) :=
  ⟨rfl, rfl⟩

theorem coordInv_init : CoordInv coordInit := by
  constructor <;> intro h
  · cases h
  · rfl

theorem coordInv_step (s : CoordState) (e : CoordEvent) (hs : CoordInv s)
    (hv : e = CoordEvent.refreshRequested ∨ s.refreshInProgress = true) :
    CoordInv (coordStep s e) := by
  obtain ⟨h1, h2⟩ := hs
  cases e with
  | refreshRequested =>
    by_cases hp : s.refreshInProgress = true
    · constructor <;> intro h <;> simp_all [coordStep]
    · have hp' : s.refreshInProgress = false := by simpa using hp
      constructor <;> intro h <;> simp_all [coordStep]
  | loadCompletes =>
    have hp : s.refreshInProgress = true := by
      rcases hv with hv | hv
      · cases hv
      · exact hv
    by_cases hq : s.pendingRefresh = true
    · constructor <;> intro h <;> simp_all [coordStep]
    · constructor <;> intro h <;> simp_all [coordStep]

theorem coordInv_run (es : List CoordEvent) : ∀ (s : CoordState), CoordInv s →
    coordValid s es = true → CoordInv (coordRun s es) := by
  induction es with
  | nil => intro s hs _; exact hs
  | cons e rest ih =>
    intro s hs hv
    rw [coordValid, Bool.and_eq_true] at hv
    obtain ⟨hv1, hv2⟩ := hv
    rw [Bool.or_eq_true, decide_eq_true_eq] at hv1
    exact ih (coordStep s e) (coordInv_step s e hs hv1) hv2

/-- C5: along every valid event sequence from the initial coordinator
state, at most one load is in flight; a request arriving during a load
is recorded in the single `pendingRefresh` slot without starting a
second load; and the completion of a load with a pending request starts
the recorded refresh immediately (so the request is not dropped). -/
theorem c5_refresh_coordinator :
    (∀ es : List CoordEvent, coordValid coordInit es = true →
      loadsInFlight (coordRun coordInit es) ≤ 1) ∧
    (∀ s : CoordState, s.refreshInProgress = true →
      (coordStep s CoordEvent.refreshRequested).pendingRefresh = true ∧
      (coordStep s CoordEvent.refreshRequested).loadsStarted = s.loadsStarted ∧
      (coordStep s CoordEvent.refreshRequested).refreshInProgress = true) ∧
    (∀ s : CoordState, s.pendingRefresh = true →
      (coordStep s CoordEvent.loadCompletes).loadsStarted = s.loadsStarted + 1 ∧
      (coordStep s CoordEvent.loadCompletes).refreshInProgress = true ∧
      (coordStep s CoordEvent.loadCompletes).pendingRefresh = false) := by
  refine ⟨?_, ?_, ?_⟩
  · intro es hv
    have hinv := coordInv_run es coordInit coordInv_init hv
    obtain ⟨h1, h2⟩ := hinv
    unfold loadsInFlight
    by_cases hp : (coordRun coordInit es).refreshInProgress = true
    · have := h1 hp
      omega
    · have := h2 (by simpa using hp)
      omega
  · intro s hp
    simp [coordStep, hp]
  · intro s hp
    simp [coordStep, hp]

/-- Witness for C5: a concrete valid burst (two requests during one
load, then both completions) keeps at most one load in flight, and the
step facts hold at concrete loading states. -/
theorem c5_witness :
    coordValid coordInit
      [CoordEvent.refreshRequested, CoordEvent.refreshRequested,
       CoordEvent.loadCompletes, CoordEvent.loadCompletes] = true ∧
    loadsInFlight (coordRun coordInit
      [CoordEvent.refreshRequested, CoordEvent.refreshRequested,
       CoordEvent.loadCompletes, CoordEvent.loadCompletes]) ≤ 1 ∧
    (coordStep ⟨true, false, 1, 0⟩ CoordEvent.refreshRequested).pendingRefresh = true ∧
    (coordStep ⟨true, true, 1, 0⟩ CoordEvent.loadCompletes).loadsStarted = 2 := by
  refine ⟨by decide, ?_, ?_, ?_⟩
  · exact c5_refresh_coordinator.1 _ (by decide)
  · exact (c5_refresh_coordinator.2.1 ⟨true, false, 1, 0⟩ rfl).1
  · exact (c5_refresh_coordinator.2.2 ⟨true, true, 1, 0⟩ rfl).1

theorem insertSorted_perm (cmp : α → α → Int) (x : α) (l : List α) :
    (insertSorted cmp x l).Perm (x :: l) := by
  induction l with
  | nil => exact List.Perm.refl _
  | cons y ys ih =>
    unfold insertSorted
    by_cases h : cmp y x < 0
    · rw [if_pos h]
      exact (ih.cons y).trans (List.Perm.swap x y ys)
    · rw [if_neg h]

theorem sortByCmp_perm (cmp : α → α → Int) (l : List α) :
    (sortByCmp cmp l).Perm l := by
  induction l with
  | nil => exact List.Perm.refl _
  | cons x xs ih =>
    exact (insertSorted_perm cmp x (sortByCmp cmp xs)).trans (ih.cons x)

theorem insertSorted_chain (cmp : α → α → Int)
    (hanti : ∀ a b, cmp a b = -(cmp b a)) (x : α) :
    ∀ l : List α, l.Chain' (fun a b => cmp a b ≤ 0) →
      (insertSorted cmp x l).Chain' (fun a b => cmp a b ≤ 0) := by
  intro l
  induction l with
  | nil => intro _; simp [insertSorted]
  | cons y ys ih =>
    intro hl
    unfold insertSorted
    by_cases h : cmp y x < 0
    · rw [if_pos h]
      have hys := hl.tail
      have hins := ih hys
      cases ys with
      | nil =>
        simp only [insertSorted]
        exact List.chain'_cons.mpr ⟨le_of_lt h, List.chain'_singleton x⟩
      | cons z zs =>
        rw [List.chain'_cons] at hl
        unfold insertSorted
        by_cases hz : cmp z x < 0
        · rw [if_pos hz]
          refine List.chain'_cons.mpr ⟨hl.1, ?_⟩
          have := ih hl.2
          rw [insertSorted, if_pos hz] at this
          exact this
        · rw [if_neg hz]
          exact List.chain'_cons.mpr ⟨le_of_lt h,
            List.chain'_cons.mpr ⟨by rw [hanti]; omega, hl.2⟩⟩
    · rw [if_neg h]
      exact List.chain'_cons.mpr ⟨by rw [hanti]; omega, hl⟩

theorem sortByCmp_chain (cmp : α → α → Int)
    (hanti : ∀ a b, cmp a b = -(cmp b a)) (l : List α) :
    (sortByCmp cmp l).Chain' (fun a b => cmp a b ≤ 0) := by
  induction l with
  | nil => simp [sortByCmp]
  | cons x xs ih => exact insertSorted_chain cmp hanti x _ ih

theorem sortByCmp_eq_self_of_chain (cmp : α → α → Int)
    (hanti : ∀ a b, cmp a b = -(cmp b a)) :
    ∀ l : List α, l.Chain' (fun a b => cmp a b ≤ 0) → sortByCmp cmp l = l := by
  intro l
  induction l with
  | nil => intro _; rfl
  | cons x xs ih =>
    intro hl
    rw [sortByCmp, ih hl.tail]
    cases xs with
    | nil => rfl
    | cons y ys =>
      rw [List.chain'_cons] at hl
      rw [insertSorted, if_neg (by rw [hanti]; omega)]

theorem sortByCmp_idem (cmp : α → α → Int)
    (hanti : ∀ a b, cmp a b = -(cmp b a)) (l : List α) :
    sortByCmp cmp (sortByCmp cmp l) = sortByCmp cmp l :=
  sortByCmp_eq_self_of_chain cmp hanti _ (sortByCmp_chain cmp hanti l)

theorem orderPair_mem (m : SortMap) (items : List BeadItemData) :
    ∀ p ∈ items.filterMap (orderPair m), sortMapGet m p.1.id = some p.2 := by
  intro p hp
  rw [List.mem_filterMap] at hp
  obtain ⟨a, _, hfa⟩ := hp
  unfold orderPair at hfa
  cases hg : sortMapGet m a.id with
  | none => rw [hg] at hfa; cases hfa
  | some o =>
    rw [hg] at hfa
    cases hfa
    exact hg

theorem filterMap_map_fst_recover (m : SortMap) (ps : List (BeadItemData × Nat))
    (h : ∀ p ∈ ps, sortMapGet m p.1.id = some p.2) :
    (ps.map Prod.fst).filterMap (orderPair m) = ps := by
  induction ps with
  | nil => rfl
  | cons p rest ih =>
    obtain ⟨it, o⟩ := p
    have hp := h (it, o) (List.mem_cons_self _ _)
    simp only [List.map_cons, List.filterMap_cons]
    rw [show orderPair m it = some (it, o) by unfold orderPair; rw [hp]; rfl]
    rw [ih fun q hq => h q (List.mem_cons_of_mem _ hq)]

theorem applySortOrder_eq (m : SortMap) (items : List BeadItemData) (hm : ¬ m.isEmpty) :
    applySortOrder m items =
      (sortByCmp (fun a b => ((a.2 : Int) - (b.2 : Int)))
          (items.filterMap (orderPair m))).map Prod.fst
        ++ items.filter (fun it => (sortMapGet m it.id).isNone) := by
  unfold applySortOrder
  rw [if_neg hm]
  rfl

theorem partition_perm (m : SortMap) (items : List BeadItemData) :
    ((items.filterMap (orderPair m)).map Prod.fst
      ++ items.filter (fun it => (sortMapGet m it.id).isNone)).Perm items := by
  induction items with
  | nil => exact List.Perm.refl _
  | cons x xs ih =>
    cases hg : sortMapGet m x.id with
    | some o =>
      simp only [List.filterMap_cons, List.filter_cons,
        show orderPair m x = some (x, o) by unfold orderPair; rw [hg]; rfl,
        hg, Option.isNone_some]
      exact ih.cons x
    | none =>
      simp only [List.filterMap_cons, List.filter_cons,
        show orderPair m x = none by unfold orderPair; rw [hg]; rfl,
        hg, Option.isNone_none]
      exact List.perm_middle.trans (ih.cons x)

/-- C10: the manual sort overlay returns a permutation of its input: no
item is dropped, duplicated, or invented, whatever the sort map
contains. -/
theorem c10_applySortOrder_perm (m : SortMap) (items : List BeadItemData) :
    (applySortOrder m items).Perm items := by
  by_cases hm : m.isEmpty
  · unfold applySortOrder
    rw [if_pos hm]
  · rw [applySortOrder_eq m items hm]
    have h1 : ((sortByCmp (fun a b => ((a.2 : Int) - (b.2 : Int)))
        (items.filterMap (orderPair m))).map Prod.fst).Perm
        ((items.filterMap (orderPair m)).map Prod.fst) :=
      (sortByCmp_perm _ _).map Prod.fst
    exact (h1.append_right _).trans (partition_perm m items)

/-- The order comparator used on the `{item, order}` pairs. -/
theorem pairCmp_anti :
    ∀ a b : BeadItemData × Nat, ((a.2 : Int) - (b.2 : Int)) = -(((b.2 : Int) - (a.2 : Int))) := by
  intro a b; omega

/-- C9: the manual sort overlay is idempotent — applying it twice with
an unchanged map produces the same order both times. -/
theorem c9_applySortOrder_idem (m : SortMap) (items : List BeadItemData) :
    applySortOrder m (applySortOrder m items) = applySortOrder m items := by
  by_cases hm : m.isEmpty
  · unfold applySortOrder
    rw [if_pos hm, if_pos hm]
  · set pc : BeadItemData × Nat → BeadItemData × Nat → Int :=
      fun a b => ((a.2 : Int) - (b.2 : Int)) with hpc
    set pairs := items.filterMap (orderPair m) with hpairs
    set S := sortByCmp pc pairs with hS
    set W := items.filter (fun it => (sortMapGet m it.id).isNone) with hW
    have hSmem : ∀ p ∈ S, sortMapGet m p.1.id = some p.2 := by
      intro p hp
      exact orderPair_mem m items p ((sortByCmp_perm pc pairs).mem_iff.mp hp)
    have hWnone : ∀ it ∈ W, orderPair m it = none := by
      intro it hit
      rw [hW, List.mem_filter] at hit
      unfold orderPair
      rw [Option.isNone_iff_eq_none.mp hit.2]
      rfl
    have h1 : (S.map Prod.fst ++ W).filterMap (orderPair m) = S := by
      rw [List.filterMap_append, List.filterMap_eq_nil_iff.mpr hWnone,
        filterMap_map_fst_recover m S hSmem, List.append_nil]
    have h2 : (S.map Prod.fst ++ W).filter (fun it => (sortMapGet m it.id).isNone) = W := by
      rw [List.filter_append]
      have hSnone : (S.map Prod.fst).filter (fun it => (sortMapGet m it.id).isNone) = [] := by
        rw [List.filter_eq_nil_iff]
        intro a ha
        rw [List.mem_map] at ha
        obtain ⟨p, hp, rfl⟩ := ha
        rw [hSmem p hp]
        simp
      have hWfil : W.filter (fun it => (sortMapGet m it.id).isNone) = W := by
        rw [List.filter_eq_self]
        intro a ha
        rw [hW, List.mem_filter] at ha
        exact ha.2
      rw [hSnone, hWfil, List.nil_append]
    rw [applySortOrder_eq m items hm, applySortOrder_eq m _ hm, ← hpairs, ← hS, ← hW, h1, h2,
      sortByCmp_eq_self_of_chain pc pairCmp_anti S (sortByCmp_chain pc pairCmp_anti pairs)]

theorem lex_irrefl_charlt : ∀ l : List Char, ¬ List.Lex (· < ·) l l := by
  intro l h
  induction l with
  | nil => cases h
  | cons x xs ih =>
    cases h with
    | rel h1 => exact lt_irrefl x h1
    | cons h1 => exact ih h1

theorem strCmp_neg_iff : ∀ a b : List Char, strCmp a b < 0 ↔ List.Lex (· < ·) a b := by
  intro a
  induction a with
  | nil =>
    intro b
    cases b with
    | nil =>
      constructor
      · intro h; simp [strCmp] at h
      · intro h; cases h
    | cons y ys =>
      constructor
      · intro _; exact List.Lex.nil
      · intro _; simp [strCmp]
  | cons x xs ih =>
    intro b
    cases b with
    | nil =>
      constructor
      · intro h; simp [strCmp] at h
      · intro h; cases h
    | cons y ys =>
      by_cases hxy : x < y
      · simp only [strCmp, if_pos hxy]
        constructor
        · intro _; exact List.Lex.rel hxy
        · intro _; norm_num
      · by_cases hyx : y < x
        · simp only [strCmp, if_neg hxy, if_pos hyx]
          constructor
          · intro h; norm_num at h
          · intro h
            cases h with
            | rel h1 => exact absurd h1 hxy
            | cons h1 => exact absurd hyx (lt_irrefl x)
        · have hxe : x = y := le_antisymm (not_lt.mp hyx) (not_lt.mp hxy)
          subst hxe
          simp only [strCmp, if_neg hxy, if_neg hyx]
          constructor
          · intro h; exact List.Lex.cons ((ih ys).mp h)
          · intro h
            cases h with
            | rel h1 => exact absurd h1 hxy
            | cons h1 => exact (ih ys).mpr h1

theorem cmpRuns_cons (a b : List Char) (as bs : List (List Char)) :
    cmpRuns (a :: as) (b :: bs) =
      (match runVal a, runVal b with
       | some va, some vb => if va ≠ vb then (va : Int) - (vb : Int) else cmpRuns as bs
       | _, _ => if a ≠ b then strCmp a b else cmpRuns as bs) := rfl

theorem cmpRuns_nil_cons (b : List Char) (bs : List (List Char)) :
    cmpRuns [] (b :: bs) = -(((b :: bs).length : Int)) := by
  show ((List.length (α := List Char) [] : Int) - ((b :: bs).length : Int)) = _
  simp

theorem cmpRuns_cons_nil (a : List Char) (as : List (List Char)) :
    cmpRuns (a :: as) [] = ((a :: as).length : Int) := by
  show (((a :: as).length : Int) - (List.length (α := List Char) [] : Int)) = _
  simp

theorem cmpRuns_neg_iff : ∀ as bs : List (List Char), cmpRuns as bs < 0 ↔ RunsLT as bs := by
  intro as
  induction as with
  | nil =>
    intro bs
    cases bs with
    | nil =>
      constructor
      · intro h; simp [cmpRuns] at h
      · intro h; cases h
    | cons b bs' =>
      constructor
      · intro _; exact RunsLT.nil
      · intro _
        rw [cmpRuns_nil_cons]
        simp only [List.length_cons]
        omega
  | cons a as' ih =>
    intro bs
    cases bs with
    | nil =>
      constructor
      · intro h
        rw [cmpRuns_cons_nil] at h
        simp only [List.length_cons] at h
        omega
      · intro h; cases h
    | cons b bs' =>
      rw [cmpRuns_cons]
      rcases hva : runVal a with _ | va <;> rcases hvb : runVal b with _ | vb <;> dsimp only
      · -- both NaN: string branch
        by_cases hab : a = b
        · rw [if_neg (by simpa using hab)]
          subst hab
          constructor
          · intro h; exact RunsLT.tail (Or.inr rfl) ((ih bs').mp h)
          · intro h
            cases h with
            | head h1 =>
              rcases h1 with ⟨va, vb, h2, _, _⟩ | ⟨_, h2⟩
              · rw [hva] at h2; cases h2
              · exact absurd h2 (lex_irrefl_charlt a)
            | tail h1 hrest => exact (ih bs').mpr hrest
        · rw [if_pos (by simpa using hab)]
          rw [strCmp_neg_iff]
          constructor
          · intro h; exact RunsLT.head (Or.inr ⟨Or.inl hva, h⟩)
          · intro h
            cases h with
            | head h1 =>
              rcases h1 with ⟨va, vb, h2, _, _⟩ | ⟨_, h2⟩
              · rw [hva] at h2; cases h2
              · exact h2
            | tail h1 hrest =>
              rcases h1 with ⟨v, h2, _⟩ | h2
              · rw [hva] at h2; cases h2
              · exact absurd h2 hab
      · -- a NaN, b numeric
        have hab : a ≠ b := by intro h; rw [h, hvb] at hva; cases hva
        rw [if_pos (by simpa using hab)]
        rw [strCmp_neg_iff]
        constructor
        · intro h; exact RunsLT.head (Or.inr ⟨Or.inl hva, h⟩)
        · intro h
          cases h with
          | head h1 =>
            rcases h1 with ⟨va, vb, h2, _, _⟩ | ⟨_, h2⟩
            · rw [hva] at h2; cases h2
            · exact h2
          | tail h1 hrest =>
            rcases h1 with ⟨v, h2, _⟩ | h2
            · rw [hva] at h2; cases h2
            · exact absurd h2 hab
      · -- a numeric, b NaN
        have hab : a ≠ b := by intro h; rw [h, hvb] at hva; cases hva
        rw [if_pos (by simpa using hab)]
        rw [strCmp_neg_iff]
        constructor
        · intro h; exact RunsLT.head (Or.inr ⟨Or.inr hvb, h⟩)
        · intro h
          cases h with
          | head h1 =>
            rcases h1 with ⟨va, vb, _, h2, _⟩ | ⟨_, h2⟩
            · rw [hvb] at h2; cases h2
            · exact h2
          | tail h1 hrest =>
            rcases h1 with ⟨v, _, h2⟩ | h2
            · rw [hvb] at h2; cases h2
            · exact absurd h2 hab
      · -- both numeric
        by_cases hv : va = vb
        · rw [if_neg (by simpa using hv)]
          subst hv
          constructor
          · intro h; exact RunsLT.tail (Or.inl ⟨va, hva, hvb⟩) ((ih bs').mp h)
          · intro h
            cases h with
            | head h1 =>
              rcases h1 with ⟨va', vb', h2, h3, h4⟩ | ⟨h2, _⟩
              · rw [hva] at h2; rw [hvb] at h3
                cases h2; cases h3
                exact absurd h4 (lt_irrefl va)
              · rcases h2 with h2 | h2
                · rw [hva] at h2; cases h2
                · rw [hvb] at h2; cases h2
            | tail h1 hrest => exact (ih bs').mpr hrest
        · rw [if_pos (by simpa using hv)]
          constructor
          · intro h
            exact RunsLT.head (Or.inl ⟨va, vb, hva, hvb, by omega⟩)
          · intro h
            cases h with
            | head h1 =>
              rcases h1 with ⟨va', vb', h2, h3, h4⟩ | ⟨h2, _⟩
              · rw [hva] at h2; rw [hvb] at h3
                cases h2; cases h3
                omega
              · rcases h2 with h2 | h2
                · rw [hva] at h2; cases h2
                · rw [hvb] at h2; cases h2
            | tail h1 hrest =>
              rcases h1 with ⟨v, h2, h3⟩ | h2
              · rw [hva] at h2; rw [hvb] at h3
                cases h2; cases h3
                exact absurd rfl hv
              · rw [h2, hvb] at hva
                cases hva
                exact absurd rfl hv

/-- C1 counterexample: the load-time comparator does not break ties by
shorter-ID-first.  The ids `T-007` and `T-7` tie on every run (their
digit runs compare numerically equal) and have equally many runs, so the
comparator returns 0 and the stable sort keeps the longer id first when
it arrives first — the spec's shorter-ID-first rule would put `T-7`
first. -/
theorem c1_counterexample :
    naturalCmpStr "T-007" "T-7" = 0 ∧
    ("T-7" : String).length < ("T-007" : String).length ∧
    (loadBeadsItems [obj [("id", str "T-007")], obj [("id", str "T-7")]]).map
        (fun b => b.id) = ["T-007", "T-7"] := by
  refine ⟨by decide, by decide, rfl⟩

/-- C1 (amended): the load-time comparator realizes exactly the natural
order described by the spec with the tie rule corrected: an id strictly
precedes another if and only if, walking their alternating run lists in
step, the first non-tying run decides (digit runs compare numerically,
runs compare lexically when either is not a digit run), with all-tied
prefixes resolved by fewer-runs-first (not by shorter-ID-first: ids
whose runs all tie with equal run counts — equal up to leading zeros in
digit runs — compare equal and keep their arrival order).  In
particular an embedded smaller number sorts first regardless of string
length, and the records `T-1`, `T-2`, `T-10` load in natural, not
lexical, order. -/
theorem c1_natural_sort_amended :
    (∀ x y : String,
      (naturalCmpStr x y < 0 ↔ RunsLT (splitRunsList x.toList) (splitRunsList y.toList))) ∧
    naturalCmpStr "BEAD-2" "BEAD-10" < 0 ∧
    (loadBeadsItems [obj [("id", str "T-1")], obj [("id", str "T-2")],
        obj [("id", str "T-10")]]).map (fun b => b.id) = ["T-1", "T-2", "T-10"] ∧
    (loadBeadsItems [obj [("id", str "T-1")], obj [("id", str "T-10")],
        obj [("id", str "T-2")]]).map (fun b => b.id) = ["T-1", "T-2", "T-10"] := by
  refine ⟨?_, by decide, rfl, rfl⟩
  intro x y
  exact cmpRuns_neg_iff (splitRunsList x.toList) (splitRunsList y.toList)

theorem bfsParents_mem (nodes : List String) (edges : List GEdge) (visited : List String)
    (id : String) :
    ∀ p ∈ bfsParents nodes edges visited id, p ∈ nodes ∧ ¬ p ∈ visited := by
  intro p hp
  unfold bfsParents at hp
  rw [List.mem_filter] at hp
  obtain ⟨hp1, hp2⟩ := hp
  rw [List.mem_filterMap] at hp1
  obtain ⟨e, _, he⟩ := hp1
  constructor
  · by_cases hc : nodes.contains e.efrom
    · rw [if_pos hc] at he
      cases he
      simpa using hc
    · rw [if_neg hc] at he
      cases he
  · simpa using hp2

theorem bfsParents_length_le (nodes : List String) (edges : List GEdge)
    (visited : List String) (id : String) :
    (bfsParents nodes edges visited id).length ≤ edges.length := by
  unfold bfsParents
  calc ((((edges.filter fun e => e.eto = id).filterMap fun e =>
        if nodes.contains e.efrom then some e.efrom else none).filter
          fun p => !(visited.contains p))).length
      ≤ (((edges.filter fun e => e.eto = id).filterMap fun e =>
          if nodes.contains e.efrom then some e.efrom else none)).length :=
        List.length_filter_le _ _
    _ ≤ ((edges.filter fun e => e.eto = id)).length := List.length_filterMap_le _ _
    _ ≤ edges.length := List.length_filter_le _ _

theorem unvisited_le_append (nodes : List String) (visited parents : List String) :
    (nodes.filter fun n => !((visited ++ parents).contains n)).length ≤
      (nodes.filter fun n => !(visited.contains n)).length := by
  refine List.Sublist.length_le (List.monotone_filter_right nodes ?_)
  intro a ha
  simp at ha ⊢
  tauto

theorem unvisited_lt_append (nodes visited parents : List String) (p0 : String)
    (hp : p0 ∈ parents) (hn : p0 ∈ nodes) (hv : ¬ p0 ∈ visited) :
    (nodes.filter fun n => !((visited ++ parents).contains n)).length <
      (nodes.filter fun n => !(visited.contains n)).length := by
  have hsub : (nodes.filter fun n => !((visited ++ parents).contains n)).Sublist
      (nodes.filter fun n => !(visited.contains n)) := by
    refine List.monotone_filter_right nodes ?_
    intro a ha
    simp at ha ⊢
    tauto
  rcases eq_or_lt_of_le hsub.length_le with heq | hlt
  · exfalso
    have hfeq := hsub.eq_of_length heq
    have h1 : p0 ∈ nodes.filter (fun n => !(visited.contains n)) := by
      rw [List.mem_filter]
      exact ⟨hn, by simpa using hv⟩
    rw [← hfeq, List.mem_filter] at h1
    have h2 := h1.2
    simp at h2
    exact h2.2 hp
  · exact hlt

theorem bfsMeasure_step_lt (nodes : List String) (edges : List GEdge) (id : String)
    (level : Nat) (rest : List (String × Nat)) (visited : List String)
    (placements : List (String × Nat)) :
    bfsMeasure nodes edges
        (bfsStep nodes edges ⟨(id, level) :: rest, visited, placements⟩) <
      bfsMeasure nodes edges ⟨(id, level) :: rest, visited, placements⟩ := by
  show bfsMeasure nodes edges
      ⟨rest ++ (bfsParents nodes edges visited id).map (fun p => (p, level + 1)),
       visited ++ bfsParents nodes edges visited id,
       placements ++ [(id, level)]⟩ < _
  unfold bfsMeasure
  simp only [List.length_append, List.length_map, List.length_cons]
  by_cases hpar : bfsParents nodes edges visited id = []
  · rw [hpar]
    simp only [List.append_nil, List.length_nil]
    omega
  · obtain ⟨p0, hp0⟩ := List.exists_mem_of_ne_nil _ hpar
    have hmem := bfsParents_mem nodes edges visited id p0 hp0
    have hlt := unvisited_lt_append nodes visited (bfsParents nodes edges visited id) p0
      hp0 hmem.1 hmem.2
    have hk : (bfsParents nodes edges visited id).length ≤ edges.length :=
      bfsParents_length_le nodes edges visited id
    set U' := (nodes.filter fun n =>
      !((visited ++ bfsParents nodes edges visited id).contains n)).length with hU'
    set U := (nodes.filter fun n => !(visited.contains n)).length with hU
    set k := (bfsParents nodes edges visited id).length with hkdef
    set E := edges.length with hE
    calc U' * (E + 1) + (rest.length + k)
        ≤ U' * (E + 1) + (rest.length + E) := by omega
      _ < (U' + 1) * (E + 1) + rest.length := by rw [Nat.succ_mul]; omega
      _ ≤ U * (E + 1) + rest.length :=
          Nat.add_le_add_right (Nat.mul_le_mul_right _ (by omega)) _
      _ < U * (E + 1) + (rest.length + 1) := by omega

theorem bfsRun_drain (nodes : List String) (edges : List GEdge) :
    ∀ (fuel : Nat) (st : BfsState), bfsMeasure nodes edges st ≤ fuel →
      (bfsRun nodes edges fuel st).queue = [] := by
  intro fuel
  induction fuel with
  | zero =>
    intro st hm
    obtain ⟨queue, visited, placements⟩ := st
    cases queue with
    | nil => rfl
    | cons q rest =>
      exfalso
      unfold bfsMeasure at hm
      simp only [List.length_cons] at hm
      omega
  | succ fuel ih =>
    intro st hm
    obtain ⟨queue, visited, placements⟩ := st
    cases queue with
    | nil => rfl
    | cons q rest =>
      obtain ⟨id, level⟩ := q
      show (bfsRun nodes edges fuel
        (bfsStep nodes edges ⟨(id, level) :: rest, visited, placements⟩)).queue = []
      exact ih _ (by
        have := bfsMeasure_step_lt nodes edges id level rest visited placements
        omega)

theorem bfsRun_placements_mono (nodes : List String) (edges : List GEdge) :
    ∀ (fuel : Nat) (st : BfsState) (p : String × Nat),
      p ∈ st.placements → p ∈ (bfsRun nodes edges fuel st).placements := by
  intro fuel
  induction fuel with
  | zero => intro st p hp; exact hp
  | succ fuel ih =>
    intro st p hp
    obtain ⟨queue, visited, placements⟩ := st
    cases queue with
    | nil => exact hp
    | cons q rest =>
      obtain ⟨id, level⟩ := q
      refine ih _ p ?_
      show p ∈ placements ++ [(id, level)]
      exact List.mem_append_left _ hp

theorem bfsRun_queue_placed (nodes : List String) (edges : List GEdge) :
    ∀ (fuel : Nat) (st : BfsState),
      (bfsRun nodes edges fuel st).queue = [] →
      ∀ p ∈ st.queue, p ∈ (bfsRun nodes edges fuel st).placements := by
  intro fuel
  induction fuel with
  | zero =>
    intro st hq p hp
    have : st.queue = [] := hq
    rw [this] at hp
    cases hp
  | succ fuel ih =>
    intro st hq p hp
    obtain ⟨queue, visited, placements⟩ := st
    cases queue with
    | nil => cases hp
    | cons q rest =>
      obtain ⟨id, level⟩ := q
      rcases List.mem_cons.mp hp with hp1 | hp1
      · subst hp1
        refine bfsRun_placements_mono nodes edges fuel _ _ ?_
        show (id, level) ∈ placements ++ [(id, level)]
        exact List.mem_append_right _ (List.mem_singleton.mpr rfl)
      · refine ih _ hq p ?_
        show p ∈ rest ++ (bfsParents nodes edges visited id).map (fun pa => (pa, level + 1))
        exact List.mem_append_left _ hp1

theorem bfsRun_visited_placed (nodes : List String) (edges : List GEdge) :
    ∀ (fuel : Nat) (st : BfsState),
      (∀ v ∈ st.visited, (∃ l, (v, l) ∈ st.placements) ∨ (∃ l, (v, l) ∈ st.queue)) →
      (bfsRun nodes edges fuel st).queue = [] →
      ∀ v ∈ (bfsRun nodes edges fuel st).visited,
        ∃ l, (v, l) ∈ (bfsRun nodes edges fuel st).placements := by
  intro fuel
  induction fuel with
  | zero =>
    intro st hinv hq v hv
    rcases hinv v hv with h | ⟨l, hl⟩
    · exact h
    · have : st.queue = [] := hq
      rw [this] at hl
      cases hl
  | succ fuel ih =>
    intro st hinv hq v hv
    obtain ⟨queue, visited, placements⟩ := st
    cases queue with
    | nil =>
      rcases hinv v hv with h | ⟨l, hl⟩
      · exact h
      · cases hl
    | cons q rest =>
      obtain ⟨id, level⟩ := q
      refine ih _ ?_ hq v hv
      intro w hw
      rcases List.mem_append.mp hw with hw1 | hw1
      · rcases hinv w hw1 with ⟨l, hl⟩ | ⟨l, hl⟩
        · exact Or.inl ⟨l, List.mem_append_left _ hl⟩
        · rcases List.mem_cons.mp hl with hl1 | hl1
          · left
            rw [Prod.ext_iff] at hl1
            obtain ⟨hwid, hlev⟩ := hl1
            subst hwid
            exact ⟨level, List.mem_append_right _ (List.mem_singleton.mpr rfl)⟩
          · exact Or.inr ⟨l, List.mem_append_left _ hl1⟩
      · right
        refine ⟨level + 1, ?_⟩
        refine List.mem_append_right _ ?_
        exact List.mem_map.mpr ⟨w, hw1, rfl⟩

theorem bfsMeasure_init_le (nodes : List String) (edges : List GEdge) :
    bfsMeasure nodes edges
      ⟨(layoutSeeds nodes edges).map (fun n => (n, 0)), layoutSeeds nodes edges, []⟩ ≤
      bfsFuelBound nodes edges := by
  unfold bfsMeasure bfsFuelBound
  simp only [List.length_map]
  have h1 : (nodes.filter fun n => !((layoutSeeds nodes edges).contains n)).length ≤
      nodes.length := List.length_filter_le _ _
  have h2 : (layoutSeeds nodes edges).length ≤ nodes.length := by
    unfold layoutSeeds
    by_cases hl : (nodes.filter fun n => outDeg edges n = 0).isEmpty
    · rw [if_pos hl]
      exact List.length_filter_le _ _
    · rw [if_neg hl]
      exact List.length_filter_le _ _
  exact Nat.add_le_add (Nat.mul_le_mul_right _ h1) h2

theorem foldl_place_mem (vis : List String) :
    ∀ (nodes : List String) (pl : List (String × Nat)) (p : String × Nat), p ∈ pl →
      p ∈ nodes.foldl
        (fun pl n => if vis.contains n then pl else pl ++ [(n, nextLevel pl)]) pl := by
  intro nodes
  induction nodes with
  | nil => intro pl p hp; exact hp
  | cons x xs ih =>
    intro pl p hp
    show p ∈ xs.foldl _ (if vis.contains x then pl else pl ++ [(x, nextLevel pl)])
    refine ih _ p ?_
    by_cases hx : vis.contains x
    · rw [if_pos hx]; exact hp
    · rw [if_neg hx]; exact List.mem_append_left _ hp

theorem foldl_place_unvisited (vis : List String) :
    ∀ (nodes : List String) (pl : List (String × Nat)) (n : String), n ∈ nodes →
      ¬ vis.contains n = true →
      ∃ l, (n, l) ∈ nodes.foldl
        (fun pl n => if vis.contains n then pl else pl ++ [(n, nextLevel pl)]) pl := by
  intro nodes
  induction nodes with
  | nil => intro pl n hn; cases hn
  | cons x xs ih =>
    intro pl n hn hv
    rcases List.mem_cons.mp hn with hn1 | hn1
    · subst hn1
      refine ⟨nextLevel pl, ?_⟩
      show (n, nextLevel pl) ∈ xs.foldl _ (if vis.contains n then pl else pl ++ [(n, nextLevel pl)])
      rw [if_neg hv]
      exact foldl_place_mem vis xs _ _ (List.mem_append_right _ (List.mem_singleton.mpr rfl))
    · exact ih _ n hn1 hv

theorem calculateLevels_eq (nodes : List String) (edges : List GEdge) :
    calculateLevels nodes edges =
      nodes.foldl
        (fun pl n =>
          if (bfsRun nodes edges (bfsFuelBound nodes edges)
              ⟨(layoutSeeds nodes edges).map (fun n => (n, 0)),
                layoutSeeds nodes edges, []⟩).visited.contains n
          then pl else pl ++ [(n, nextLevel pl)])
        (bfsRun nodes edges (bfsFuelBound nodes edges)
          ⟨(layoutSeeds nodes edges).map (fun n => (n, 0)),
            layoutSeeds nodes edges, []⟩).placements := rfl

/-- C8: for every input graph, cycles included, the layout computation
terminates (the fueled BFS provably drains its queue within the proved
bound) and assigns every node at least one finite level, the
unreached ones being appended past the current maximum. -/
theorem c8_layout_terminates_total (nodes : List String) (edges : List GEdge) :
    ∀ n ∈ nodes,
      (bfsRun nodes edges (bfsFuelBound nodes edges)
        ⟨(layoutSeeds nodes edges).map (fun n => (n, 0)),
          layoutSeeds nodes edges, []⟩).queue = [] ∧
      ∃ l, (n, l) ∈ calculateLevels nodes edges := by
  intro n hn
  have hq : (bfsRun nodes edges (bfsFuelBound nodes edges)
      ⟨(layoutSeeds nodes edges).map (fun n => (n, 0)),
        layoutSeeds nodes edges, []⟩).queue = [] :=
    bfsRun_drain nodes edges _ _ (bfsMeasure_init_le nodes edges)
  refine ⟨hq, ?_⟩
  rw [calculateLevels_eq]
  by_cases hv : (bfsRun nodes edges (bfsFuelBound nodes edges)
      ⟨(layoutSeeds nodes edges).map (fun n => (n, 0)),
        layoutSeeds nodes edges, []⟩).visited.contains n
  · have hinv : ∀ v ∈ (layoutSeeds nodes edges),
        (∃ l, (v, l) ∈ ([] : List (String × Nat))) ∨
        (∃ l, (v, l) ∈ (layoutSeeds nodes edges).map (fun n => (n, 0))) := by
      intro v hvs
      exact Or.inr ⟨0, List.mem_map.mpr ⟨v, hvs, rfl⟩⟩
    have hplaced := bfsRun_visited_placed nodes edges (bfsFuelBound nodes edges)
      ⟨(layoutSeeds nodes edges).map (fun n => (n, 0)), layoutSeeds nodes edges, []⟩
      hinv hq n (by simpa using hv)
    obtain ⟨l, hl⟩ := hplaced
    exact ⟨l, foldl_place_mem _ nodes _ _ hl⟩
  · exact foldl_place_unvisited _ nodes _ n hn hv

/-- Witness for C8: the two-node cycle terminates and places both nodes
at a finite level. -/
theorem c8_witness :
    (("A" : String) ∈ ["A", "B"]) ∧ (("B" : String) ∈ ["A", "B"]) ∧
    (∃ l, (("A" : String), l) ∈ calculateLevels ["A", "B"] [⟨"A", "B"⟩, ⟨"B", "A"⟩]) ∧
    (∃ l, (("B" : String), l) ∈ calculateLevels ["A", "B"] [⟨"A", "B"⟩, ⟨"B", "A"⟩]) := by
  refine ⟨by decide, by decide, ?_, ?_⟩
  · exact (c8_layout_terminates_total ["A", "B"] [⟨"A", "B"⟩, ⟨"B", "A"⟩] "A" (by decide)).2
  · exact (c8_layout_terminates_total ["A", "B"] [⟨"A", "B"⟩, ⟨"B", "A"⟩] "B" (by decide)).2

/-- C7: the layered layout seeds level 0 with every node of out-degree
0 (such a node is always placed at level 0), and on the dependency
chain A→B→C the backwards BFS yields exactly level 0 for C, level 1 for
B, and level 2 for A. -/
theorem c7_layout_chain :
    (∀ (nodes : List String) (edges : List GEdge) (n : String), n ∈ nodes →
      outDeg edges n = 0 → (n, 0) ∈ calculateLevels nodes edges) ∧
    calculateLevels ["A", "B", "C"] [⟨"A", "B"⟩, ⟨"B", "C"⟩] =
      [("C", 0), ("B", 1), ("A", 2)] := by
  constructor
  · intro nodes edges n hn hdeg
    have hleaf : n ∈ nodes.filter fun m => outDeg edges m = 0 := by
      rw [List.mem_filter]
      exact ⟨hn, by simp [hdeg]⟩
    have hne : ¬ (nodes.filter fun m => outDeg edges m = 0).isEmpty := by
      rw [List.isEmpty_iff]
      exact List.ne_nil_of_mem hleaf
    have hseed : n ∈ layoutSeeds nodes edges := by
      unfold layoutSeeds
      rw [if_neg hne]
      exact hleaf
    have hq : (bfsRun nodes edges (bfsFuelBound nodes edges)
        ⟨(layoutSeeds nodes edges).map (fun n => (n, 0)),
          layoutSeeds nodes edges, []⟩).queue = [] :=
      bfsRun_drain nodes edges _ _ (bfsMeasure_init_le nodes edges)
    have hplaced := bfsRun_queue_placed nodes edges (bfsFuelBound nodes edges)
      ⟨(layoutSeeds nodes edges).map (fun n => (n, 0)), layoutSeeds nodes edges, []⟩
      hq (n, 0) (List.mem_map.mpr ⟨n, hseed, rfl⟩)
    rw [calculateLevels_eq]
    exact foldl_place_mem _ nodes _ _ hplaced
  · rfl

/-- Witness for C7: the general seeding clause applied to the chain's
dependency-free node C. -/
theorem c7_witness :
    (("C" : String) ∈ ["A", "B", "C"]) ∧
    outDeg [⟨"A", "B"⟩, ⟨"B", "C"⟩] "C" = 0 ∧
    (("C" : String), 0) ∈ calculateLevels ["A", "B", "C"] [⟨"A", "B"⟩, ⟨"B", "C"⟩] := by
  refine ⟨by decide, by decide, ?_⟩
  exact c7_layout_chain.1 ["A", "B", "C"] [⟨"A", "B"⟩, ⟨"B", "C"⟩] "C" (by decide) (by decide)
